import Mathlib

/-!
Verification development for the Gaussian smoothing subsystem of a JPEG XL
fragment (`jxl/gauss_blur.h`).  Floating-point values are modelled as real
numbers; machine `int` as `ℤ`; `std::vector` as `List ℝ`.  The header defines
`GaussianKernel` inline; the remaining operations are declared there and
specified in the accompanying design document, so their bodies are modelled
from that specification (marked `Modelled from the spec:` below).
-/

namespace GaussBlur

noncomputable section

/-- The multiplier `scaler = -1.0 / (2 * sigma * sigma)` computed by
`GaussianKernel` (gauss_blur.h line 34). -/
def gaussScaler (sigma : ℝ) : ℝ := -1 / (2 * sigma * sigma)

/-- One unnormalized tap `std::exp(scaler * i * i)` (gauss_blur.h line 37). -/
def gaussTapUnnormalized (sigma : ℝ) (i : ℤ) : ℝ :=
  Real.exp (gaussScaler sigma * i * i)

/-- The accumulated normalizer `sum` of `GaussianKernel`: the sum of the
unnormalized taps for `i = -radius .. radius` (gauss_blur.h lines 35-40),
enumerated by the vector index `j = i + radius`. -/
def gaussSum (radius : ℕ) (sigma : ℝ) : ℝ :=
  ((List.range (2 * radius + 1)).map
    (fun j : ℕ => gaussTapUnnormalized sigma ((j : ℤ) - radius))).sum

/-- The vector returned by `GaussianKernel` for a nonnegative radius: entry
`j = i + radius` holds `exp(scaler*i*i)` divided by the accumulated sum
(gauss_blur.h lines 33-44). -/
def gaussianTaps (radius : ℕ) (sigma : ℝ) : List ℝ :=
  (List.range (2 * radius + 1)).map
    (fun j : ℕ => gaussTapUnnormalized sigma ((j : ℤ) - radius) / gaussSum radius sigma)

/-- The two failure modes of `GaussianKernel`: the `JXL_ASSERT(sigma > 0.0)`
on line 32 firing, and the `std::vector` constructor on line 33 receiving
`2*radius+1 < 0` converted to an enormous `size_t`, which raises a length
error. -/
inductive GaussFail where
  | assertSigma
  | lengthError
  deriving DecidableEq

/-- `GaussianKernel(radius, sigma)` (gauss_blur.h lines 30-45): asserts
`sigma > 0.0` first; then constructs a vector of size `2*radius+1` (failing
with a length error when that quantity is negative, since it is converted to
`size_t`); then fills and normalizes the taps. -/
def GaussianKernel (radius : ℤ) (sigma : ℝ) : Except GaussFail (List ℝ) :=
  if sigma ≤ 0 then .error .assertSigma
  else if radius < 0 then .error .lengthError
  else .ok (gaussianTaps radius.toNat sigma)

/-- Modelled from the spec: the mirrored-extension index map shared by the
exact convolution path.  The header documents (gauss_blur.h lines 47-53)
`mirrored input: [aR ... a1 | a0 a1 a2 ... aN | aN-1 ... aN-R]`: extended
coordinate `i < 0` reads input sample `-i`, `i ≥ xsize` reads
`2*(xsize-1) - i`, with defensive clamping into `[0, xsize)` as the spec
prescribes for out-of-contract radii. -/
def mirrorIdx (size : ℕ) (i : ℤ) : ℕ :=
  if i < 0 then min (-i).toNat (size - 1)
  else if i < size then i.toNat
  else size - 1 - min (i - (size - 1)).toNat (size - 1)

/-- Modelled from the spec: `ExtrapolateBorders` (declared at gauss_blur.h
lines 60-62, body not in the fragment).  Produces the row of length
`xsize + 2*radius` whose entry `j` is the mirrored-extension sample at
extended coordinate `j - radius`, following the mirroring convention
documented at gauss_blur.h lines 47-53. -/
def ExtrapolateBorders (row : List ℝ) (radius : ℕ) : List ℝ :=
  (List.range (row.length + 2 * radius)).map
    (fun j : ℕ => row.getD (mirrorIdx row.length ((j : ℤ) - radius)) 0)

/-- The caller-owned dense float image: dimensions plus a pixel accessor
(spec section 3, "Image"). -/
structure ImageF where
  xsize : ℕ
  ysize : ℕ
  pix : ℕ → ℕ → ℝ

/-- Modelled from the spec: one mirrored 1D convolution pass.  With kernel
radius `R = len/2`, the value at position `x` of a line of extent `size`
accessed through `f` is the sum over kernel entries `d` of
`kernel[d] * f(mirror(x + d - R))`. -/
def convolve1D (kernel : List ℝ) (size : ℕ) (f : ℕ → ℝ) (x : ℕ) : ℝ :=
  ∑ d ∈ Finset.range kernel.length,
    kernel.getD d 0 * f (mirrorIdx size ((x : ℤ) + d - kernel.length / 2))

/-- Modelled from the spec: `ConvolveAndSample` (declared at gauss_blur.h
lines 56-57, body not in the fragment).  Horizontal mirrored 1D convolution
followed by a vertical mirrored 1D convolution of the horizontal result,
with only every `res`-th row and column of the final result materialized;
the output image is `xsize/res` by `ysize/res`. -/
def ConvolveAndSample (img : ImageF) (kernel : List ℝ) (res : ℕ) : ImageF where
  xsize := img.xsize / res
  ysize := img.ysize / res
  pix := fun ox oy =>
    convolve1D kernel img.ysize
      (fun y => convolve1D kernel img.xsize (fun x => img.pix x y) (ox * res))
      (oy * res)

/-- The full 2D separable convolution of the mirror-extended input with the
kernel, evaluated at input position `(x, y)`: the double sum over kernel
offsets of `kernel[dx] * kernel[dy]` times the mirror-extended pixel.
Stated from the claim's words, to be compared with `ConvolveAndSample`. -/
def fullConvolution2D (img : ImageF) (kernel : List ℝ) (x y : ℕ) : ℝ :=
  ∑ dx ∈ Finset.range kernel.length, ∑ dy ∈ Finset.range kernel.length,
    kernel.getD dx 0 * kernel.getD dy 0 *
      img.pix (mirrorIdx img.xsize ((x : ℤ) + dx - kernel.length / 2))
              (mirrorIdx img.ysize ((y : ℤ) + dy - kernel.length / 2))

/-- The coefficient bundle of gauss_blur.h lines 66-84, with the 4x lane
replication flattened to one scalar per recursive section `k = {1,3,5}` as
the spec's design notes allow: feedback weights against the previous and
second-previous outputs (`mul_prev`, `mul_prev2`), the input weight
(`mul_in`), the vertical-pass coefficients (`n2`, `d1`), and the boundary
radius. -/
structure RecursiveGaussian where
  n2 : Fin 3 → ℝ
  d1 : Fin 3 → ℝ
  mul_prev : Fin 3 → ℝ
  mul_prev2 : Fin 3 → ℝ
  mul_in : Fin 3 → ℝ
  radius : ℕ

/-- Modelled from the spec: `CreateRecursiveGaussian` (declared at
gauss_blur.h line 89, body not in the fragment).  The exact coefficient
derivation is implementation-defined per the spec's design notes; we model
the documented structure — a deterministic pure function of `sigma`
producing three recursive sections for `k = {1,3,5}` with cosine-derived
feedback weights and a boundary radius proportional to `sigma`. -/
def CreateRecursiveGaussian (sigma : ℝ) : RecursiveGaussian :=
  let radius : ℕ := ⌈3 * sigma⌉₊
  let freq : Fin 3 → ℝ := fun k =>
    (2 * (k : ℝ) + 1) * Real.pi / (2 * (radius + 1))
  let weight : Fin 3 → ℝ := fun k =>
    Real.exp (-(freq k ^ 2) * sigma ^ 2 / 2)
  { n2 := weight
    d1 := fun k => 2 * Real.cos (freq k)
    mul_prev := fun k => 2 * Real.cos (freq k)
    mul_prev2 := fun _ => -1
    mul_in := weight
    radius := radius }

/-- The input as seen by the fast path: samples at indices outside
`[0, width)` are zero (zero-pad boundary, spec section 4.5). -/
def zeroPad (iv : ℤ → ℝ) (width : ℕ) (j : ℤ) : ℝ :=
  if 0 ≤ j ∧ j < width then iv j else 0

/-- Modelled from the spec: one recursive section advanced over samples
`0..n`.  Returns the pair (output at `n`, output at `n-1`); the output at
each step weights the current input by `mi` and feeds back the previous and
second-previous outputs through `mp` and `mp2`. -/
def sectionPass (mi mp mp2 : ℝ) (x : ℕ → ℝ) : ℕ → ℝ × ℝ
  | 0 => (mi * x 0, 0)
  | n + 1 =>
    let p := sectionPass mi mp mp2 x n
    (mi * x (n + 1) + mp * p.1 + mp2 * p.2, p.1)

/-- Modelled from the spec: the forward (causal) sweep of the cascade — the
three sections run left-to-right over the zero-padded input, summed. -/
def forwardPass (rg : RecursiveGaussian) (iv : ℤ → ℝ) (width : ℕ) (n : ℕ) : ℝ :=
  ∑ k : Fin 3,
    (sectionPass (rg.mul_in k) (rg.mul_prev k) (rg.mul_prev2 k)
      (fun m => zeroPad iv width (m : ℤ)) n).1

/-- Modelled from the spec: the backward (anticausal) sweep — the three
sections run right-to-left over the zero-padded input, summed; the value
reported at sample `n` is the reversed-pass output at distance
`width - 1 - n` from the right edge. -/
def backwardPass (rg : RecursiveGaussian) (iv : ℤ → ℝ) (width : ℕ) (n : ℕ) : ℝ :=
  ∑ k : Fin 3,
    (sectionPass (rg.mul_in k) (rg.mul_prev k) (rg.mul_prev2 k)
      (fun m => zeroPad iv width ((width : ℤ) - 1 - m)) (width - 1 - n)).1

/-- Modelled from the spec: `FastGaussian1D` (declared at gauss_blur.h lines
92-94, body not in the fragment).  The output buffer of length `width`
holds, at each sample, the sum of the forward and backward sweeps over the
zero-padded input. -/
def FastGaussian1D (rg : RecursiveGaussian) (iv : ℤ → ℝ) (width : ℕ) : List ℝ :=
  (List.range width).map
    (fun n => forwardPass rg iv width n + backwardPass rg iv width n)

end

section Helpers

theorem getD_map_range (n t : ℕ) (f : ℕ → ℝ) (h : t < n) :
    ((List.range n).map f).getD t 0 = f t := by
  simp [List.getD_eq_getElem?_getD, List.getElem?_range, h]

theorem sum_map_div (l : List ℝ) (S : ℝ) :
    (l.map (fun x => x / S)).sum = l.sum / S := by
  induction l with
  | nil => simp
  | cons a t ih => simp [ih, add_div]

theorem one_le_gaussSum (radius : ℕ) (sigma : ℝ) :
    1 ≤ gaussSum radius sigma := by
  have hval : gaussTapUnnormalized sigma ((radius : ℤ) - radius) = 1 := by
    simp [gaussTapUnnormalized]
  have hmem : (1 : ℝ) ∈ (List.range (2 * radius + 1)).map
      (fun j : ℕ => gaussTapUnnormalized sigma ((j : ℤ) - radius)) := by
    refine List.mem_map.mpr ⟨radius, ?_, hval⟩
    exact List.mem_range.mpr (by omega)
  have hnn : ∀ x ∈ (List.range (2 * radius + 1)).map
      (fun j : ℕ => gaussTapUnnormalized sigma ((j : ℤ) - radius)), (0 : ℝ) ≤ x := by
    intro x hx
    obtain ⟨j, -, rfl⟩ := List.mem_map.mp hx
    exact (Real.exp_pos _).le
  exact List.single_le_sum hnn 1 hmem

theorem gaussSum_pos (radius : ℕ) (sigma : ℝ) : 0 < gaussSum radius sigma :=
  lt_of_lt_of_le one_pos (one_le_gaussSum radius sigma)

end Helpers

/-- C9: for every radius ≥ 0 and sigma > 0, the normalization divisor `sum`
accumulated inside `GaussianKernel` is at least 1 (the center tap contributes
`exp 0 = 1` and every other tap is nonnegative), hence it is nonzero and the
normalization loop never divides by zero. -/
theorem gaussSum_ge_one_ne_zero (radius : ℕ) (sigma : ℝ) (h : 0 < sigma) :
    1 ≤ gaussSum radius sigma ∧ gaussSum radius sigma ≠ 0 :=
  ⟨one_le_gaussSum radius sigma, (gaussSum_pos radius sigma).ne'⟩

/-- Witness for C9 at radius 2, sigma 1. -/
theorem gaussSum_ge_one_ne_zero_witness :
    (0 : ℝ) < 1 ∧ (1 ≤ gaussSum 2 1 ∧ gaussSum 2 1 ≠ 0) :=
  ⟨by norm_num, gaussSum_ge_one_ne_zero 2 1 (by norm_num)⟩

/-- C1: for every radius ≥ 0 and sigma > 0, `GaussianKernel` returns exactly
`2*radius+1` taps; the tap at offset `i` from the center equals
`exp(-i^2/(2*sigma^2))` divided by the sum of all unnormalized taps; and the
returned taps sum to 1 (exact over the reals). -/
theorem GaussianKernel_taps_spec (radius : ℕ) (sigma : ℝ) (i : ℤ)
    (h : 0 < sigma) (hlo : -(radius : ℤ) ≤ i) (hhi : i ≤ radius) :
    (gaussianTaps radius sigma).length = 2 * radius + 1 ∧
    (gaussianTaps radius sigma).getD (i + radius).toNat 0 =
      Real.exp (-(i : ℝ) ^ 2 / (2 * sigma ^ 2)) / gaussSum radius sigma ∧
    (gaussianTaps radius sigma).sum = 1 := by
  refine ⟨by rw [gaussianTaps, List.length_map, List.length_range], ?_, ?_⟩
  · have ht : (i + radius).toNat < 2 * radius + 1 := by omega
    rw [gaussianTaps, getD_map_range _ _ _ ht]
    have hcast : (((i + radius).toNat : ℤ) - radius) = i := by omega
    rw [hcast]
    have hs : sigma ≠ 0 := h.ne'
    congr 1
    unfold gaussTapUnnormalized gaussScaler
    congr 1
    field_simp
    ring
  · rw [gaussianTaps]
    rw [show (fun j : ℕ => gaussTapUnnormalized sigma ((j : ℤ) - radius) / gaussSum radius sigma)
        = (fun x => x / gaussSum radius sigma) ∘
          (fun j : ℕ => gaussTapUnnormalized sigma ((j : ℤ) - radius)) from rfl]
    rw [← List.map_map, sum_map_div]
    exact div_self (gaussSum_pos radius sigma).ne'

/-- Witness for C1 at radius 1, sigma 1, offset 1. -/
theorem GaussianKernel_taps_spec_witness :
    (gaussianTaps 1 1).length = 3 ∧
    (gaussianTaps 1 1).getD 2 0 = Real.exp (-1 / 2) / gaussSum 1 1 ∧
    (gaussianTaps 1 1).sum = 1 := by
  have h := GaussianKernel_taps_spec 1 1 1 (by norm_num) (by norm_num) (by norm_num)
  norm_num [List.getD_eq_getElem?_getD, Int.toNat_ofNat] at h ⊢
  exact h

section TapHelpers

theorem getD_gaussianTaps (radius : ℕ) (sigma : ℝ) (i : ℤ)
    (hlo : -(radius : ℤ) ≤ i) (hhi : i ≤ radius) :
    (gaussianTaps radius sigma).getD (i + radius).toNat 0 =
      gaussTapUnnormalized sigma i / gaussSum radius sigma := by
  have ht : (i + radius).toNat < 2 * radius + 1 := by omega
  rw [gaussianTaps, getD_map_range _ _ _ ht]
  congr 2
  omega

theorem gaussTapUnnormalized_anti (sigma : ℝ) (i j : ℤ) (hij : |i| ≤ |j|) :
    gaussTapUnnormalized sigma j ≤ gaussTapUnnormalized sigma i := by
  unfold gaussTapUnnormalized
  apply Real.exp_le_exp.mpr
  have habs : |(i : ℝ)| ≤ |(j : ℝ)| := by exact_mod_cast hij
  have hsq : (i : ℝ) * i ≤ (j : ℝ) * j := by
    have hm := mul_self_le_mul_self (abs_nonneg (i : ℝ)) habs
    rwa [abs_mul_abs_self, abs_mul_abs_self] at hm
  have hpos : (0 : ℝ) < 2 * sigma * sigma ∨ 2 * sigma * sigma = 0 ∨
      2 * sigma * sigma < 0 := by
    rcases lt_trichotomy (2 * sigma * sigma) 0 with hc | hc | hc
    · exact Or.inr (Or.inr hc)
    · exact Or.inr (Or.inl hc)
    · exact Or.inl hc
  have hscaler : gaussScaler sigma ≤ 0 := by
    unfold gaussScaler
    rcases hpos with hc | hc | hc
    · exact (div_neg_of_neg_of_pos (by norm_num) hc).le
    · rw [hc, div_zero]
    · nlinarith [mul_self_nonneg sigma]
  calc gaussScaler sigma * j * j = gaussScaler sigma * (j * j) := by ring
    _ ≤ gaussScaler sigma * (i * i) := mul_le_mul_of_nonpos_left hsq hscaler
    _ = gaussScaler sigma * i * i := by ring

end TapHelpers

/-- C10: for every radius ≥ 0 and sigma > 0, every tap of the kernel is
nonnegative, tap values are non-increasing as the absolute offset from the
center grows, and the center tap is a maximum. -/
theorem gaussianTaps_nonneg_mono (radius : ℕ) (sigma : ℝ) (i j : ℤ) (t : ℕ)
    (h : 0 < sigma) (hilo : -(radius : ℤ) ≤ i) (hihi : i ≤ radius)
    (hjlo : -(radius : ℤ) ≤ j) (hjhi : j ≤ radius) (hij : |i| ≤ |j|)
    (ht : t < 2 * radius + 1) :
    0 ≤ (gaussianTaps radius sigma).getD (i + radius).toNat 0 ∧
    (gaussianTaps radius sigma).getD (j + radius).toNat 0 ≤
      (gaussianTaps radius sigma).getD (i + radius).toNat 0 ∧
    (gaussianTaps radius sigma).getD t 0 ≤
      (gaussianTaps radius sigma).getD radius 0 := by
  have hS := gaussSum_pos radius sigma
  refine ⟨?_, ?_, ?_⟩
  · rw [getD_gaussianTaps radius sigma i hilo hihi]
    exact div_nonneg (Real.exp_pos _).le hS.le
  · rw [getD_gaussianTaps radius sigma i hilo hihi,
      getD_gaussianTaps radius sigma j hjlo hjhi]
    exact div_le_div_of_nonneg_right (gaussTapUnnormalized_anti sigma i j hij) hS.le
  · have e1 : (((t : ℤ) - radius) + radius).toNat = t := by omega
    have e0 : (((0 : ℤ)) + radius).toNat = radius := by omega
    have g1 := getD_gaussianTaps radius sigma ((t : ℤ) - radius) (by omega) (by omega)
    have g0 := getD_gaussianTaps radius sigma 0 (by omega) (by omega)
    rw [e1] at g1
    rw [e0] at g0
    rw [g0, g1]
    refine div_le_div_of_nonneg_right ?_ hS.le
    exact gaussTapUnnormalized_anti sigma 0 _ (by simpa using abs_nonneg ((t : ℤ) - radius))

/-- Witness for C10 at radius 1, sigma 1, offsets i = 0, j = 1, index t = 2. -/
theorem gaussianTaps_nonneg_mono_witness :
    0 ≤ (gaussianTaps 1 1).getD 1 0 ∧
    (gaussianTaps 1 1).getD 2 0 ≤ (gaussianTaps 1 1).getD 1 0 := by
  obtain ⟨h1, -, h3⟩ := gaussianTaps_nonneg_mono 1 1 0 1 2 (by norm_num) (by norm_num)
    (by norm_num) (by norm_num) (by norm_num) (by norm_num) (by norm_num)
  exact ⟨by simpa using h1, h3⟩

/-- C6 (amended): `GaussianKernel` fails assertion-style exactly when
`sigma ≤ 0`; a negative radius does not fire any assertion — it produces an
oversized vector-length request (a length error, after the sigma assertion
has already passed); for sigma > 0 and radius ≥ 0 the function returns
normally. -/
theorem GaussianKernel_failure_modes (radius : ℤ) (sigma : ℝ) :
    (sigma ≤ 0 → GaussianKernel radius sigma = .error .assertSigma) ∧
    (0 < sigma → radius < 0 → GaussianKernel radius sigma = .error .lengthError) ∧
    (0 < sigma → 0 ≤ radius →
      GaussianKernel radius sigma = .ok (gaussianTaps radius.toNat sigma)) := by
  refine ⟨fun hs => ?_, fun hs hr => ?_, fun hs hr => ?_⟩
  · rw [GaussianKernel, if_pos hs]
  · rw [GaussianKernel, if_neg (not_le.mpr hs), if_pos hr]
  · rw [GaussianKernel, if_neg (not_le.mpr hs), if_neg (not_lt.mpr hr)]

/-- Witness for C6: normal return at radius 2, sigma 1; assertion at
sigma = -1; length error (not the assertion) at radius -3. -/
theorem GaussianKernel_failure_modes_witness :
    GaussianKernel 2 1 = Except.ok (gaussianTaps 2 1) ∧
    GaussianKernel 2 (-1) = Except.error GaussFail.assertSigma ∧
    GaussianKernel (-3) 1 = Except.error GaussFail.lengthError := by
  refine ⟨?_, ?_, ?_⟩
  · have h := (GaussianKernel_failure_modes 2 1).2.2 (by norm_num) (by norm_num)
    simpa using h
  · exact (GaussianKernel_failure_modes 2 (-1)).1 (by norm_num)
  · exact (GaussianKernel_failure_modes (-3) 1).2.1 (by norm_num) (by norm_num)

/-- Counterexample for C6 as stated: at radius -1, sigma 2 the sigma
assertion passes, so a negative radius is not answered by an
assertion-style failure. -/
theorem GaussianKernel_negative_radius_not_assert :
    GaussianKernel (-1) 2 ≠ Except.error GaussFail.assertSigma := by
  rw [GaussianKernel, if_neg (by norm_num : ¬(2 : ℝ) ≤ 0), if_pos (by norm_num : (-1 : ℤ) < 0)]
  simp

/-- C2 (amended): for a row of length `xsize > R`, `ExtrapolateBorders`
returns `xsize + 2R` samples; the leading `R` satisfy
`output[R-1-k] = input[k+1]` (whole-sample mirror: the first sample is the
axis and is not repeated), the middle copies the input, and the trailing `R`
mirror the tail about the last sample: `output[R+xsize+k] = input[xsize-2-k]`. -/
theorem ExtrapolateBorders_spec (row : List ℝ) (radius : ℕ)
    (hr : radius < row.length) :
    (ExtrapolateBorders row radius).length = row.length + 2 * radius ∧
    (∀ k, k < radius →
      (ExtrapolateBorders row radius).getD (radius - 1 - k) 0 = row.getD (k + 1) 0) ∧
    (∀ x, x < row.length →
      (ExtrapolateBorders row radius).getD (radius + x) 0 = row.getD x 0) ∧
    (∀ k, k < radius →
      (ExtrapolateBorders row radius).getD (radius + row.length + k) 0 =
        row.getD (row.length - 2 - k) 0) := by
  refine ⟨by rw [ExtrapolateBorders, List.length_map, List.length_range], ?_, ?_, ?_⟩
  · intro k hk
    have hj : radius - 1 - k < row.length + 2 * radius := by omega
    rw [ExtrapolateBorders, getD_map_range _ _ _ hj]
    congr 1
    simp only [mirrorIdx]
    rw [if_pos (by omega : ((radius - 1 - k : ℕ) : ℤ) - radius < 0)]
    omega
  · intro x hx
    have hj : radius + x < row.length + 2 * radius := by omega
    rw [ExtrapolateBorders, getD_map_range _ _ _ hj]
    congr 1
    simp only [mirrorIdx]
    rw [if_neg (by omega : ¬((radius + x : ℕ) : ℤ) - radius < 0),
      if_pos (by omega : ((radius + x : ℕ) : ℤ) - radius < row.length)]
    omega
  · intro k hk
    have hj : radius + row.length + k < row.length + 2 * radius := by omega
    rw [ExtrapolateBorders, getD_map_range _ _ _ hj]
    congr 1
    simp only [mirrorIdx]
    rw [if_neg (by omega : ¬((radius + row.length + k : ℕ) : ℤ) - radius < 0),
      if_neg (by omega : ¬((radius + row.length + k : ℕ) : ℤ) - radius < row.length)]
    omega

/-- Witness for C2 at row `[1,2,3]`, radius 2: length 7, `output[0] = input[2]`,
`output[3] = input[1]`, `output[6] = input[0]`. -/
theorem ExtrapolateBorders_spec_witness :
    (ExtrapolateBorders [(1 : ℝ), 2, 3] 2).length = 7 ∧
    (ExtrapolateBorders [(1 : ℝ), 2, 3] 2).getD 0 0 = ([(1 : ℝ), 2, 3]).getD 2 0 ∧
    (ExtrapolateBorders [(1 : ℝ), 2, 3] 2).getD 3 0 = ([(1 : ℝ), 2, 3]).getD 1 0 ∧
    (ExtrapolateBorders [(1 : ℝ), 2, 3] 2).getD 6 0 = ([(1 : ℝ), 2, 3]).getD 0 0 := by
  obtain ⟨h1, h2, h3, h4⟩ := ExtrapolateBorders_spec [(1 : ℝ), 2, 3] 2 (by norm_num)
  exact ⟨by simpa using h1, by simpa using h2 1 (by norm_num),
    by simpa using h3 1 (by norm_num), by simpa using h4 1 (by norm_num)⟩

/-- Counterexample for C2 as stated: the claimed leading-border formula
`output[R-1-k] = input[k]` fails at row `[1,2,3]`, radius 2, `k = 0`:
`output[1]` is 2 while `input[0]` is 1. -/
theorem ExtrapolateBorders_claim_formula_false :
    (ExtrapolateBorders [(1 : ℝ), 2, 3] 2).getD 1 0 ≠ ([(1 : ℝ), 2, 3]).getD 0 0 := by
  have hL : (ExtrapolateBorders [(1 : ℝ), 2, 3] 2).getD 1 0 = 2 := rfl
  have hR : ([(1 : ℝ), 2, 3]).getD 0 0 = 1 := rfl
  rw [hL, hR]
  norm_num

/-- C3 (amended): `ExtrapolateBorders` applied to `[1,2,3]` with radius 1
yields `[2,1,2,3,2]` (the edge samples are the reflection axes and are not
duplicated). -/
theorem ExtrapolateBorders_123_radius1 :
    ExtrapolateBorders [(1 : ℝ), 2, 3] 1 = [2, 1, 2, 3, 2] := rfl

/-- Counterexample for C3 as stated: the output on `[1,2,3]` with radius 1 is
not `[1,1,2,3,3]` (its first entry is 2, not 1). -/
theorem ExtrapolateBorders_123_radius1_not_claimed :
    ExtrapolateBorders [(1 : ℝ), 2, 3] 1 ≠ [1, 1, 2, 3, 3] := by
  have hfull : ExtrapolateBorders [(1 : ℝ), 2, 3] 1 = [2, 1, 2, 3, 2] := rfl
  rw [hfull]
  intro h
  injection h with h1 _
  norm_num at h1

section ConvHelpers

theorem sum_range_getD (l : List ℝ) :
    ∑ d ∈ Finset.range l.length, l.getD d 0 = l.sum := by
  induction l with
  | nil => simp
  | cons a t ih =>
    rw [List.length_cons, Finset.sum_range_succ', List.sum_cons]
    simp only [List.getD_cons_succ, List.getD_cons_zero]
    rw [ih]
    ring

theorem convolve1D_const (kernel : List ℝ) (size : ℕ) (f : ℕ → ℝ) (x : ℕ)
    (c : ℝ) (hsum : kernel.sum = 1) (hf : ∀ i, f i = c) :
    convolve1D kernel size f x = c := by
  unfold convolve1D
  rw [Finset.sum_congr rfl (fun d _ => by rw [hf] :
    ∀ d ∈ Finset.range kernel.length,
      kernel.getD d 0 * f (mirrorIdx size ((x : ℤ) + d - kernel.length / 2)) =
        kernel.getD d 0 * c)]
  rw [← Finset.sum_mul, sum_range_getD, hsum, one_mul]

end ConvHelpers

/-- C4: under the divisibility precondition, `ConvolveAndSample` returns an
image of size `xsize/res` by `ysize/res` whose pixel at `(ox, oy)` is the
full 2D separable convolution of the mirror-extended input with the kernel
evaluated at input position `(ox*res, oy*res)`. -/
theorem ConvolveAndSample_spec (img : ImageF) (kernel : List ℝ) (res ox oy : ℕ)
    (hres : 0 < res) (hx : res ∣ img.xsize) (hy : res ∣ img.ysize) :
    (ConvolveAndSample img kernel res).xsize = img.xsize / res ∧
    (ConvolveAndSample img kernel res).ysize = img.ysize / res ∧
    (ConvolveAndSample img kernel res).pix ox oy =
      fullConvolution2D img kernel (ox * res) (oy * res) := by
  refine ⟨rfl, rfl, ?_⟩
  show convolve1D kernel img.ysize
      (fun y => convolve1D kernel img.xsize (fun x => img.pix x y) (ox * res))
      (oy * res) = _
  simp only [convolve1D, fullConvolution2D, Finset.mul_sum]
  rw [Finset.sum_comm]
  refine Finset.sum_congr rfl fun dx _ => Finset.sum_congr rfl fun dy _ => by ring

/-- Witness for C4 on a 1x1 zero image with the identity kernel `[1]`,
`res = 1`, output pixel `(0, 0)`. -/
theorem ConvolveAndSample_spec_witness :
    (ConvolveAndSample ⟨1, 1, fun _ _ => 0⟩ [(1 : ℝ)] 1).xsize = 1 ∧
    (ConvolveAndSample ⟨1, 1, fun _ _ => 0⟩ [(1 : ℝ)] 1).ysize = 1 ∧
    (ConvolveAndSample ⟨1, 1, fun _ _ => 0⟩ [(1 : ℝ)] 1).pix 0 0 =
      fullConvolution2D ⟨1, 1, fun _ _ => 0⟩ [(1 : ℝ)] 0 0 := by
  obtain ⟨h1, h2, h3⟩ := ConvolveAndSample_spec ⟨1, 1, fun _ _ => 0⟩ [(1 : ℝ)] 1 0 0
    (by norm_num) (one_dvd _) (one_dvd _)
  exact ⟨by simpa using h1, by simpa using h2, by simpa using h3⟩

/-- C5 (amended): for every odd-length kernel whose taps sum to 1,
`ConvolveAndSample` maps a constant image of value `c` to a constant image
of value `c` (DC preservation). -/
theorem ConvolveAndSample_dc (img : ImageF) (kernel : List ℝ) (res ox oy : ℕ)
    (c : ℝ) (hodd : Odd kernel.length) (hsum : kernel.sum = 1)
    (hc : ∀ x y, img.pix x y = c) (hres : 0 < res)
    (hx : res ∣ img.xsize) (hy : res ∣ img.ysize) :
    (ConvolveAndSample img kernel res).pix ox oy = c := by
  show convolve1D kernel img.ysize
      (fun y => convolve1D kernel img.xsize (fun x => img.pix x y) (ox * res))
      (oy * res) = c
  refine convolve1D_const kernel img.ysize _ (oy * res) c hsum fun y => ?_
  exact convolve1D_const kernel img.xsize _ (ox * res) c hsum fun x => hc x y

/-- Witness for C5 on a 1x1 image of constant 5 with kernel `[1]`, res 1. -/
theorem ConvolveAndSample_dc_witness :
    (ConvolveAndSample ⟨1, 1, fun _ _ => (5 : ℝ)⟩ [(1 : ℝ)] 1).pix 0 0 = 5 :=
  ConvolveAndSample_dc ⟨1, 1, fun _ _ => (5 : ℝ)⟩ [(1 : ℝ)] 1 0 0 5
    ⟨0, by norm_num⟩ (by simp) (fun _ _ => rfl) (by norm_num) (one_dvd _) (one_dvd _)

/-- Counterexample for C5 as stated: the odd-length kernel `[2]` does not
sum to 1, and on a 1x1 constant-1 image with `res = 1` the output pixel is
4, not 1. -/
theorem ConvolveAndSample_dc_claim_false :
    (ConvolveAndSample ⟨1, 1, fun _ _ => (1 : ℝ)⟩ [(2 : ℝ)] 1).pix 0 0 ≠ 1 := by
  have hval : (ConvolveAndSample ⟨1, 1, fun _ _ => (1 : ℝ)⟩ [(2 : ℝ)] 1).pix 0 0 = 4 := by
    show convolve1D [(2 : ℝ)] 1 _ (0 * 1) = 4
    simp [convolve1D, mirrorIdx]
    norm_num
  rw [hval]
  norm_num

/-- C7: `FastGaussian1D` reads the signal only through the zero-padded view
(any two inputs agreeing on `[0, width)` give identical output, whatever
their values outside), and each output sample is the sum of the forward
(causal) and backward (anticausal) sweeps of the recursive cascade. -/
theorem FastGaussian1D_spec (rg : RecursiveGaussian) (iv iv2 : ℤ → ℝ)
    (width n : ℕ) (hw : 1 ≤ width) (hn : n < width)
    (hagree : ∀ j : ℤ, 0 ≤ j → j < (width : ℤ) → iv j = iv2 j) :
    FastGaussian1D rg iv width = FastGaussian1D rg iv2 width ∧
    (FastGaussian1D rg iv width).getD n 0 =
      forwardPass rg iv width n + backwardPass rg iv width n := by
  have hpad : zeroPad iv width = zeroPad iv2 width := by
    funext j
    unfold zeroPad
    split
    · next hcond => exact hagree j hcond.1 hcond.2
    · rfl
  constructor
  · unfold FastGaussian1D forwardPass backwardPass
    rw [hpad]
  · unfold FastGaussian1D
    exact getD_map_range width n _ hn

/-- Witness for C7: coefficients for sigma 1, two inputs differing only at
negative indices, width 2, sample 0. -/
theorem FastGaussian1D_spec_witness :
    FastGaussian1D (CreateRecursiveGaussian 1) (fun _ => 0) 2 =
      FastGaussian1D (CreateRecursiveGaussian 1)
        (fun j => if j < 0 then 7 else 0) 2 ∧
    (FastGaussian1D (CreateRecursiveGaussian 1) (fun _ => 0) 2).getD 0 0 =
      forwardPass (CreateRecursiveGaussian 1) (fun _ => 0) 2 0 +
        backwardPass (CreateRecursiveGaussian 1) (fun _ => 0) 2 0 :=
  FastGaussian1D_spec (CreateRecursiveGaussian 1) (fun _ => 0)
    (fun j => if j < 0 then 7 else 0) 2 0 (by norm_num) (by norm_num)
    (fun j h1 _ => (if_neg (not_lt.mpr h1)).symm)

/-- C8: `CreateRecursiveGaussian` is a pure, deterministic function of
sigma: two calls with the same sigma yield equal coefficient bundles, and
feeding each into `FastGaussian1D` on the same input of the same width
yields identical output. -/
theorem CreateRecursiveGaussian_deterministic (sigma1 sigma2 : ℝ)
    (iv : ℤ → ℝ) (width : ℕ) (h : 0 < sigma1) (heq : sigma1 = sigma2) :
    CreateRecursiveGaussian sigma1 = CreateRecursiveGaussian sigma2 ∧
    FastGaussian1D (CreateRecursiveGaussian sigma1) iv width =
      FastGaussian1D (CreateRecursiveGaussian sigma2) iv width := by
  subst heq
  exact ⟨rfl, rfl⟩

/-- Witness for C8 at sigma 1 on the zero input of width 1. -/
theorem CreateRecursiveGaussian_deterministic_witness :
    CreateRecursiveGaussian 1 = CreateRecursiveGaussian 1 ∧
    FastGaussian1D (CreateRecursiveGaussian 1) (fun _ => 0) 1 =
      FastGaussian1D (CreateRecursiveGaussian 1) (fun _ => 0) 1 :=
  CreateRecursiveGaussian_deterministic 1 1 (fun _ => 0) 1 (by norm_num) rfl

end GaussBlur
